import Mathlib

/-!
Verification of the autimaat IRC-bot core against its specification.

Go strings and byte slices are modelled as `List Nat` (one entry per byte).
The wire protocol is ASCII, so byte-level and rune-level operations of the
Go standard library coincide on the inputs considered here; the whitespace
set is the ASCII part of unicode.IsSpace.
-/

/-- Bytes of an ASCII string literal.  (For ASCII text, UTF-8 bytes and
character codes coincide.) -/
def asBytes (s : String) : List Nat := s.data.map Char.toNat

/-- ASCII whitespace, the ASCII fragment of Go's unicode.IsSpace as used by
bytes.Fields / strings.Fields / bytes.TrimSpace. -/
def isSpaceB (b : Nat) : Bool :=
  b = 32 || b = 9 || b = 10 || b = 11 || b = 12 || b = 13

/-- One pass of the field splitter: `acc` holds the bytes of the current
field, most recent first.  A separator byte (one satisfying `p`) closes the
current field; the end of input closes a pending field. -/
def fieldsGo (p : Nat → Bool) : List Nat → List Nat → List (List Nat)
  | [], acc => if acc = [] then [] else [acc.reverse]
  | b :: t, acc =>
    if p b then
      if acc = [] then fieldsGo p t []
      else acc.reverse :: fieldsGo p t []
    else fieldsGo p t (b :: acc)

/-- Generic field splitter: maximal runs not satisfying `p`; runs of `p`
separate fields.  Models Go's bytes.Fields / strings.Fields (ASCII). -/
def fieldsBy (p : Nat → Bool) (l : List Nat) : List (List Nat) :=
  fieldsGo p l []

/-- bytes.Fields with ASCII whitespace. -/
def fieldsB : List Nat → List (List Nat) := fieldsBy isSpaceB

/-- Models bytes.Index(l, pat) > -1, i.e. `pat` occurs contiguously in `l`. -/
def containsSeq (pat : List Nat) : List Nat → Bool
  | [] => pat.isPrefixOf ([] : List Nat)
  | b :: t => pat.isPrefixOf (b :: t) || containsSeq pat t

/-- The `\r\n` line terminator. -/
def crlf : List Nat := [13, 10]

/-- proto.Raw: format the message for the wire.  `none` means no write
occurs (and no error is raised); `some line` is the exact byte sequence
handed to the writer.  Mirrors src/irc/proto/proto.go:

    data := []byte(msg + "\r\n"); sz := len(data)
    if sz <= 2 { return nil }
    if sz >= 512 {
      data = data[:512]
      if data[510] != '\r' { data[510] = '\r' }
      if data[511] != '\n' { data[511] = '\n' }
    }
    _, err := w.Write(data)
-/
def Raw (msg : List Nat) : Option (List Nat) :=
  let data := msg ++ crlf
  let sz := data.length
  if sz ≤ 2 then none
  else if sz ≥ 512 then
    let t0 := data.take 512
    let t1 := if t0.getD 510 0 ≠ 13 then t0.set 510 13 else t0
    let t2 := if t1.getD 511 0 ≠ 10 then t1.set 511 10 else t1
    some t2
  else some data

/-- A fallible writer: `fails i` says whether the i-th write attempt on the
connection returns an error.  `rawW` threads proto.Raw through it; the log
records every line handed to the writer, in order. -/
def rawW (fails : Nat → Bool) (st : List (List Nat)) (msg : List Nat) :
    List (List Nat) × Bool :=
  match Raw msg with
  | none => (st, false)
  | some line => (st ++ [line], fails st.length)

-- Helper lemmas about setting / reading bytes near the end of a list.

theorem set_append_len {α : Type} (l suf : List α) (a : α) :
    (l ++ suf).set l.length a = l ++ suf.set 0 a := by
  induction l with
  | nil => rfl
  | cons b t ih => simp [List.set, ih]

theorem getD_append_len {α : Type} [Inhabited α] (l : List α) (x : α) (rest : List α) (d : α) :
    (l ++ x :: rest).getD l.length d = x := by
  induction l with
  | nil => rfl
  | cons b t ih => simpa using ih

theorem take_512_decomp (data : List Nat) (h : 512 ≤ data.length) :
    data.take 512 = data.take 510 ++ [data.getD 510 0, data.getD 511 0] := by
  have h510 : 510 < data.length := by omega
  have h511 : 511 < data.length := by omega
  have e1 : data.getD 510 0 = data.get ⟨510, h510⟩ := by
    simp [List.getD_eq_getElem?_getD, List.getElem?_eq_getElem h510]
  have e2 : data.getD 511 0 = data.get ⟨511, h511⟩ := by
    simp [List.getD_eq_getElem?_getD, List.getElem?_eq_getElem h511]
  rw [e1, e2]
  have s1 : data.take 512 = data.take 511 ++ [data.get ⟨511, h511⟩] := by
    simpa using (List.take_concat_get data 511 h511).symm
  have s2 : data.take 511 = data.take 510 ++ [data.get ⟨510, h510⟩] := by
    simpa using (List.take_concat_get data 510 h510).symm
  rw [s1, s2]
  simp only [List.append_assoc, List.singleton_append, List.cons_append,
    List.nil_append, List.get_eq_getElem]

theorem length_take_510 (data : List Nat) (h : 512 ≤ data.length) :
    (data.take 510).length = 510 := by
  simp [List.length_take]; omega

/-- Core computation of Raw in the truncating branch: the output is the
first 510 bytes followed by a forced terminator. -/
theorem Raw_long (msg : List Nat) (h : 512 ≤ (msg ++ crlf).length) :
    Raw msg = some ((msg ++ crlf).take 510 ++ crlf) := by
  have h2 : ¬ (msg ++ crlf).length ≤ 2 := by omega
  have hdec := take_512_decomp (msg ++ crlf) h
  have hlen := length_take_510 (msg ++ crlf) h
  set data := msg ++ crlf with hdata
  set T := data.take 510 with hT
  set a := data.getD 510 0 with ha
  set b := data.getD 511 0 with hb
  have hgetA : (data.take 512).getD 510 0 = a := by
    rw [hdec]
    have := getD_append_len T a [b] 0
    rwa [hlen] at this
  -- Value of the first conditional update.
  have step1 :
      (if (data.take 512).getD 510 0 ≠ 13 then (data.take 512).set 510 13
        else data.take 512) = T ++ 13 :: [b] := by
    by_cases hcase : a = 13
    · rw [if_neg (by rw [hgetA, hcase]; simp), hdec, hcase]
    · rw [if_pos (by rw [hgetA]; exact hcase), hdec]
      have := set_append_len T (a :: [b]) 13
      rwa [hlen] at this
  have hassoc : T ++ 13 :: [b] = (T ++ [13]) ++ [b] := by simp
  have hlen2 : (T ++ [13]).length = 511 := by simp [hlen]
  have hgetB : (T ++ 13 :: [b]).getD 511 0 = b := by
    rw [hassoc]
    have := getD_append_len (T ++ [13]) b [] 0
    rwa [hlen2] at this
  -- Value of the second conditional update.
  have step2 :
      (if (T ++ 13 :: [b]).getD 511 0 ≠ 10 then (T ++ 13 :: [b]).set 511 10
        else T ++ 13 :: [b]) = T ++ crlf := by
    by_cases hcase : b = 10
    · rw [if_neg (by rw [hgetB, hcase]; simp), hcase]
      rfl
    · rw [if_pos (by rw [hgetB]; exact hcase), hassoc]
      have := set_append_len (T ++ [13]) [b] 10
      rw [hlen2] at this
      rw [this]
      simp [crlf]
  show Raw msg = some (T ++ crlf)
  rw [Raw]
  simp only [← hdata]
  rw [if_neg h2, if_pos (by omega : data.length ≥ 512), step1, step2]

/-- C1.  Raw enforces the 512-byte ceiling: any formatted line (message plus
terminator) longer than 512 bytes is emitted as exactly 512 bytes — its first
510 bytes unchanged, byte 510 forced to CR and byte 511 to LF, everything
beyond discarded — and a message whose formatted line is at most 2 bytes
(i.e. an empty message) causes no write and no error, for every writer. -/
theorem raw_truncation_and_empty_suppression (msg : List Nat) :
    (512 < (msg ++ crlf).length →
      Raw msg = some ((msg ++ crlf).take 510 ++ crlf) ∧
      ((msg ++ crlf).take 510 ++ crlf).length = 512 ∧
      ((msg ++ crlf).take 510 ++ crlf).getD 510 0 = 13 ∧
      ((msg ++ crlf).take 510 ++ crlf).getD 511 0 = 10) ∧
    ((msg ++ crlf).length ≤ 2 →
      ∀ fails st, rawW fails st msg = (st, false)) := by
  constructor
  · intro h
    have h' : 512 ≤ (msg ++ crlf).length := by omega
    have hlen := length_take_510 (msg ++ crlf) h'
    refine ⟨Raw_long msg h', ?_, ?_, ?_⟩
    · rw [List.length_append, hlen]
      rfl
    · have := getD_append_len ((msg ++ crlf).take 510) 13 [10] 0
      rw [hlen] at this
      exact this
    · have hassoc : (msg ++ crlf).take 510 ++ crlf =
          ((msg ++ crlf).take 510 ++ [13]) ++ [10] := by simp [crlf]
      have hlen2 : ((msg ++ crlf).take 510 ++ [13]).length = 511 := by simp [hlen]
      rw [hassoc]
      have := getD_append_len ((msg ++ crlf).take 510 ++ [13]) 10 [] 0
      rwa [hlen2] at this
  · intro h fails st
    have hnone : Raw msg = none := by
      rw [Raw]
      rw [if_pos h]
    simp [rawW, hnone]

/-- Witness for C1 at a concrete 600-byte message and at the empty message. -/
theorem raw_truncation_and_empty_suppression_witness :
    (512 < (List.replicate 600 65 ++ crlf).length ∧
      Raw (List.replicate 600 65) =
        some ((List.replicate 600 65 ++ crlf).take 510 ++ crlf)) ∧
    (([] ++ crlf : List Nat).length ≤ 2 ∧
      rawW (fun _ => true) [] [] = ([], false)) := by
  have hlong : 512 < (List.replicate 600 65 ++ crlf).length := by
    rw [List.length_append, List.length_replicate]
    exact by omega
  have hshort : (([] : List Nat) ++ crlf).length ≤ 2 := by
    rw [List.nil_append]
    exact Nat.le_refl 2
  have h1 := (raw_truncation_and_empty_suppression (List.replicate 600 65)).1 hlong
  have h2 := (raw_truncation_and_empty_suppression []).2 hshort (fun _ => true) []
  exact ⟨⟨hlong, h1.1⟩, ⟨hshort, h2⟩⟩

-- ### The wire decoder (parseRequest, src/unnamed/part_016 and part_029)

/-- irc.Request: a single decoded inbound message. -/
structure Request where
  SenderName : List Nat := []
  SenderMask : List Nat := []
  «Type» : List Nat := []
  Target : List Nat := []
  Data : List Nat := []
deriving DecidableEq

/-- Outcome of running parseRequest.  `crash` models a Go runtime panic
(index out of range), `skip` the "not a valid protocol message" result
(return false / nil). -/
inductive ParseOutcome where
  | crash
  | skip
  | ok (r : Request)
deriving DecidableEq

def bNameSplitter : Nat := 33

def bPING : List Nat := asBytes "PING"

def bERROR : List Nat := asBytes "ERROR"

def bQUIT : List Nat := asBytes "QUIT"

/-- One step of the colon-stripping loop: `if fields[i][0] == ':' {
fields[i] = fields[i][1:] }`.  (Go fields are never empty; the nil case is
unreachable.) -/
def stripColon (f : List Nat) : List Nat :=
  match f with
  | [] => []
  | b :: t => if b = 58 then t else b :: t

/-- The loop `for i := 0; i < 4 && i < len(fields); i++ { ... }`. -/
def stripFirst4 (fs : List (List Nat)) : List (List Nat) :=
  (fs.take 4).map stripColon ++ fs.drop 4

/-- bytes.Index(f0, "!") combined with the two slices around it:
`some (name, mask)` when '!' occurs, splitting at its first occurrence. -/
def splitBang : List Nat → Option (List Nat × List Nat)
  | [] => none
  | 33 :: t => some ([], t)
  | b :: t =>
    match splitBang t with
    | none => none
    | some (x, y) => some (b :: x, y)

/-- bytes.Join(fs, " "). -/
def joinSp : List (List Nat) → List Nat
  | [] => []
  | [x] => x
  | x :: xs => x ++ 32 :: joinSp xs

/-- parseRequest.  Field-for-field translation of the Go function; list
indexing that Go performs without a bounds check becomes `crash` when the
index is out of range. -/
def parseRequest (data : List Nat) : ParseOutcome :=
  if fieldsB data = [] then .skip
  else if containsSeq bQUIT data then .skip
  else if bPING.isPrefixOf data then
    match (fieldsB data).get? 1 with
    | none => .crash
    | some f1 => .ok { «Type» := bPING, Data := f1.drop 1 }
  else if bERROR.isPrefixOf data then
    match (fieldsB data).get? 1 with
    | none => .crash
    | some f1 => .ok { «Type» := bERROR, Data := f1.drop 1 }
  else
    match stripFirst4 (fieldsB data) with
    | f0 :: f1 :: f2 :: rest =>
      match splitBang f0 with
      | some (x, y) =>
        .ok { SenderName := x, SenderMask := y, «Type» := f1, Target := f2,
              Data := joinSp rest }
      | none =>
        .ok { SenderName := f0, SenderMask := f0, «Type» := f1, Target := f2,
              Data := joinSp rest }
    | _ => .crash

/-- The payload carried by a successful parse. -/
def ParseOutcome.payload : ParseOutcome → Option (List Nat)
  | .ok r => some r.Data
  | _ => none

-- ### Lemmas about fieldsB

theorem fieldsGo_ne_nil (p : Nat → Bool) (l acc : List Nat) (h : acc ≠ []) :
    fieldsGo p l acc ≠ [] := by
  induction l generalizing acc with
  | nil => simp [fieldsGo, h]
  | cons b t ih =>
    by_cases hb : p b
    · simp [fieldsGo, hb, h]
    · simp only [fieldsGo, hb, if_false, Bool.false_eq_true]
      exact ih (b :: acc) (by simp)

theorem fieldsB_all_space (data : List Nat) (h : data.all isSpaceB = true) :
    fieldsB data = [] := by
  unfold fieldsB fieldsBy
  induction data with
  | nil => rfl
  | cons b t ih =>
    have hb : isSpaceB b = true := List.all_eq_true.mp h b (by simp)
    have ht : t.all isSpaceB = true := by
      refine List.all_eq_true.mpr ?_
      intro x hx
      exact List.all_eq_true.mp h x (by simp [hx])
    simp only [fieldsGo, hb, if_true, if_pos rfl]
    exact ih ht

theorem fieldsB_cons_ne_nil (b : Nat) (t : List Nat) (h : isSpaceB b = false) :
    fieldsB (b :: t) ≠ [] := by
  unfold fieldsB fieldsBy
  simp only [fieldsGo, h, Bool.false_eq_true, if_false]
  exact fieldsGo_ne_nil isSpaceB t [b] (by simp)

theorem isPrefixOf_ne_PING_of_ERROR (data : List Nat)
    (h : bERROR.isPrefixOf data = true) : bPING.isPrefixOf data = false := by
  obtain ⟨rest, rfl⟩ := List.isPrefixOf_iff_prefix.mp h
  rfl

/-- parseRequest discards every line in which QUIT occurs. -/
theorem parseRequest_quit (data : List Nat)
    (h : containsSeq bQUIT data = true) : parseRequest data = .skip := by
  unfold parseRequest
  simp [h]

/-- parseRequest discards whitespace-only (in particular empty) input. -/
theorem parseRequest_blank (data : List Nat)
    (h : data.all isSpaceB = true) : parseRequest data = .skip := by
  unfold parseRequest
  simp [fieldsB_all_space data h]

/-- On a PING/ERROR line the payload is the second field minus its first
byte (the code removes that byte whether or not it is a ':' marker). -/
theorem parseRequest_ping_error_payload (data f1 : List Nat)
    (hpre : bPING.isPrefixOf data = true ∨ bERROR.isPrefixOf data = true)
    (hq : containsSeq bQUIT data = false)
    (hf : (fieldsB data).get? 1 = some f1) :
    (parseRequest data).payload = some (f1.drop 1) := by
  rcases hpre with hp | he
  · obtain ⟨rest, hdata⟩ := List.isPrefixOf_iff_prefix.mp hp
    have hne : fieldsB data ≠ [] := by
      rw [← hdata]
      exact fieldsB_cons_ne_nil 80 _ (by decide)
    unfold parseRequest
    rw [if_neg hne, if_neg (by simp [hq]), if_pos hp, hf]
    rfl
  · obtain ⟨rest, hdata⟩ := List.isPrefixOf_iff_prefix.mp he
    have hne : fieldsB data ≠ [] := by
      rw [← hdata]
      exact fieldsB_cons_ne_nil 69 _ (by decide)
    have hnp : bPING.isPrefixOf data = false := isPrefixOf_ne_PING_of_ERROR data he
    unfold parseRequest
    rw [if_neg hne, if_neg (by simp [hq]), if_neg (by simp [hnp]), if_pos he, hf]
    rfl

/-- C5 (counterexample).  On the line "PING abc", whose second field does not
start with a ':' marker, the decoder does not return the second field intact:
it removes the first byte unconditionally, yielding "bc" instead of "abc". -/
theorem ping_payload_counterexample :
    (parseRequest (asBytes "PING abc")).payload = some (asBytes "bc") ∧
    (parseRequest (asBytes "PING abc")).payload ≠ some (asBytes "abc") := by
  constructor
  · decide
  · decide

/-- C5 (amended).  decode("PING :abc") yields a PING event with payload
"abc"; any line containing QUIT decodes to none; whitespace-only input
decodes to none; and every PING- or ERROR-prefixed line free of QUIT that
has a second whitespace-separated field decodes to that field with its
FIRST BYTE removed — which is the ':' marker exactly when the field is
colon-prefixed. -/
theorem parseRequest_special_cases :
    (parseRequest (asBytes "PING :abc") =
      .ok { «Type» := bPING, Data := asBytes "abc" }) ∧
    (∀ data, containsSeq bQUIT data = true → parseRequest data = .skip) ∧
    (∀ data, data.all isSpaceB = true → parseRequest data = .skip) ∧
    (∀ data f1,
      (bPING.isPrefixOf data = true ∨ bERROR.isPrefixOf data = true) →
      containsSeq bQUIT data = false →
      (fieldsB data).get? 1 = some f1 →
      (parseRequest data).payload = some (f1.drop 1)) := by
  refine ⟨by decide, parseRequest_quit, parseRequest_blank, ?_⟩
  intro data f1 hpre hq hf
  exact parseRequest_ping_error_payload data f1 hpre hq hf

/-- Witness for C5 at concrete lines: a QUIT line, a blank line, and the
payload clause at "ERROR :gone". -/
theorem parseRequest_special_cases_witness :
    parseRequest (asBytes "x QUIT y") = .skip ∧
    parseRequest (asBytes "   ") = .skip ∧
    (parseRequest (asBytes "ERROR :gone")).payload = some (asBytes "gone") := by
  refine ⟨?_, ?_, ?_⟩
  · exact parseRequest_special_cases.2.1 (asBytes "x QUIT y") (by decide)
  · exact parseRequest_special_cases.2.2.1 (asBytes "   ") (by decide)
  · have h := parseRequest_special_cases.2.2.2 (asBytes "ERROR :gone")
      (asBytes ":gone") (Or.inr (by decide)) (by decide) (by decide)
    exact h

/-- C10.  The decoder is not total: on lines with fewer than the expected
number of whitespace-separated fields the Go code indexes past the end of
the fields slice and panics — "PING" with no argument, "ERROR" with no
argument, and a two-field ordinary line all crash instead of returning
none or an event. -/
theorem parseRequest_crashes_on_short_lines :
    parseRequest (asBytes "PING") = .crash ∧
    parseRequest (asBytes "ERROR") = .crash ∧
    parseRequest (asBytes "foo bar") = .crash ∧
    parseRequest (asBytes "foo") = .crash := by
  refine ⟨by decide, by decide, by decide, by decide⟩

-- ### Inherited file descriptors (bot.go inheritedFiles / app/proc InheritedFiles)

/-- An os.File reconstructed by os.NewFile: descriptor slot plus name. -/
structure FileHandle where
  fd : Nat
  name : List Nat
deriving DecidableEq

/-- inheritedFiles: with `-fork 0` there is nothing to adopt; with
`-fork N`, N > 0, handle i is bound to descriptor slot 3+i with name
"conn<i>".  Mirrors the loop `out[i] = os.NewFile(3+uintptr(i), ...)`. -/
def InheritedFiles (connectionCount : Nat) : List FileHandle :=
  if connectionCount = 0 then []
  else (List.range connectionCount).map fun i =>
    { fd := 3 + i, name := asBytes "conn" ++ asBytes (Nat.repr i) }

/-- C8.  Starting with N inherited descriptors reconstructs exactly N
handles, bound to slots 3, 4, ..., 3+N-1 in order; N = 2 gives exactly the
slots 3 and 4, and N = 0 gives none. -/
theorem inheritedFiles_slots :
    (∀ n, (InheritedFiles n).length = n) ∧
    (∀ n i, i < n → ((InheritedFiles n).get? i).map FileHandle.fd = some (3 + i)) ∧
    InheritedFiles 0 = [] ∧
    (InheritedFiles 2).map FileHandle.fd = [3, 4] := by
  refine ⟨?_, ?_, rfl, by decide⟩
  · intro n
    by_cases h : n = 0
    · simp [InheritedFiles, h]
    · simp [InheritedFiles, h]
  · intro n i hlt
    have h : n ≠ 0 := by omega
    unfold InheritedFiles
    rw [if_neg h]
    rw [List.get?_map, List.get?_range hlt]
    rfl

/-- Witness for C8: the second of two inherited connections sits at slot 4. -/
theorem inheritedFiles_slots_witness :
    (1 : Nat) < 2 ∧ ((InheritedFiles 2).get? 1).map FileHandle.fd = some 4 := by
  exact ⟨by decide, inheritedFiles_slots.2.1 2 1 (by decide)⟩

-- ### Connection close (part_031 Client.Close)

/-- State of a live network connection's descriptor. -/
structure Conn where
  closed : Bool
  releases : Nat
deriving DecidableEq

/-- Modelled from the spec: Client.Close's entire body is
`return c.conn.Close()`, and the close-once guard lives in the Go net
package, outside this repository.  Per net.Conn's contract, closing an open
connection releases the descriptor once and marks the connection closed;
any later Close returns an error and releases nothing. -/
def connClose (c : Conn) : Conn × Bool :=
  if c.closed then (c, true)
  else ({ closed := true, releases := c.releases + 1 }, false)

/-- Client.Close: delegates to the transport's Close. -/
def ClientClose (c : Conn) : Conn × Bool := connClose c

/-- n successive calls of Client.Close. -/
def iterClose : Nat → Conn → Conn
  | 0, c => c
  | n + 1, c => iterClose n (ClientClose c).1

/-- C7.  Close is idempotent: however many times it is called on an open
connection (at least once), the underlying descriptor is released exactly
once, and the connection simply stays closed. -/
theorem clientClose_idempotent (n : Nat) (h : 1 ≤ n) :
    iterClose n { closed := false, releases := 0 } =
      { closed := true, releases := 1 } := by
  induction n with
  | zero => omega
  | succ m ih =>
    have hstep : iterClose (m + 1) { closed := false, releases := 0 } =
        iterClose m { closed := true, releases := 1 } := rfl
    rcases Nat.eq_zero_or_pos m with hm | hm
    · rw [hstep, hm]
      rfl
    · have hclosed : ∀ k, iterClose k { closed := true, releases := 1 } =
          { closed := true, releases := 1 } := by
        intro k
        induction k with
        | zero => rfl
        | succ j ihj => exact ihj
      rw [hstep, hclosed]

/-- Witness for C7 at three consecutive Close calls. -/
theorem clientClose_idempotent_witness :
    (1 : Nat) ≤ 3 ∧ iterClose 3 { closed := false, releases := 0 } =
      { closed := true, releases := 1 } := by
  exact ⟨by decide, clientClose_idempotent 3 (by decide)⟩

-- ### Round-trip support: fields of a space-joined token list

theorem fieldsGo_word (p : Nat → Bool) (w : List Nat)
    (hw : w.all (fun b => ! p b) = true) :
    ∀ l acc, fieldsGo p (w ++ l) acc = fieldsGo p l (w.reverse ++ acc) := by
  induction w with
  | nil => intro l acc; rfl
  | cons b t ih =>
    intro l acc
    have hb : p b = false := by
      have := List.all_eq_true.mp hw b (by simp)
      simpa using this
    have ht : t.all (fun b => ! p b) = true := by
      refine List.all_eq_true.mpr ?_
      intro x hx
      exact List.all_eq_true.mp hw x (by simp [hx])
    simp only [List.cons_append, fieldsGo, hb, Bool.false_eq_true, if_false,
      List.append_eq]
    rw [ih ht l (b :: acc)]
    simp

theorem joinSp_ne_nil (ts : List (List Nat)) (h0 : ts ≠ [])
    (h : ∀ t ∈ ts, t ≠ []) : joinSp ts ≠ [] := by
  match ts with
  | [] => exact absurd rfl h0
  | [x] => exact h x (by simp)
  | x :: y :: rest =>
    have hx : x ≠ [] := h x (by simp)
    simp only [joinSp]
    simp [hx]

/-- Splitting a space-joined list of nonempty, whitespace-free tokens
recovers exactly those tokens. -/
theorem fieldsB_joinSp (ts : List (List Nat))
    (h : ∀ t ∈ ts, t ≠ [] ∧ t.all (fun b => ! isSpaceB b) = true) :
    fieldsB (joinSp ts) = ts := by
  induction ts with
  | nil => rfl
  | cons x xs ih =>
    have hx := h x (by simp)
    match xs, ih with
    | [], _ =>
      show fieldsGo isSpaceB (joinSp [x]) [] = [x]
      have : joinSp [x] = x ++ [] := by simp [joinSp]
      rw [this, fieldsGo_word isSpaceB x hx.2 [] []]
      simp only [fieldsGo]
      rw [if_neg (by simp [hx.1])]
      simp
    | y :: rest, ih =>
      have hrec : fieldsB (joinSp (y :: rest)) = y :: rest := by
        refine ih ?_
        intro t ht
        exact h t (by simp [ht])
      show fieldsGo isSpaceB (joinSp (x :: y :: rest)) [] = x :: y :: rest
      have hjoin : joinSp (x :: y :: rest) = x ++ 32 :: joinSp (y :: rest) := rfl
      rw [hjoin, fieldsGo_word isSpaceB x hx.2 (32 :: joinSp (y :: rest)) []]
      simp only [fieldsGo]
      rw [if_pos (by decide : isSpaceB 32 = true),
        if_neg (by simp [hx.1])]
      rw [show fieldsGo isSpaceB (joinSp (y :: rest)) [] = fieldsB (joinSp (y :: rest)) from rfl]
      rw [hrec]
      simp

-- ### Round-trip support: colon stripping, bang splitting, trimming

theorem map_id_of_forall {α : Type} (f : α → α) :
    ∀ l : List α, (∀ x ∈ l, f x = x) → l.map f = l := by
  intro l
  induction l with
  | nil => intro _; rfl
  | cons b t ih =>
    intro h
    rw [List.map_cons, h b (by simp), ih (fun x hx => h x (by simp [hx]))]

theorem stripFirst4_id (fs : List (List Nat))
    (h : ∀ f ∈ fs.take 4, f.head? ≠ some 58) : stripFirst4 fs = fs := by
  unfold stripFirst4
  have hmap : (fs.take 4).map stripColon = fs.take 4 := by
    refine map_id_of_forall stripColon _ ?_
    intro f hf
    have hh := h f hf
    match f with
    | [] => rfl
    | b :: t =>
      have hb : b ≠ 58 := by
        intro hb
        exact hh (by simp [hb])
      simp [stripColon, hb]
  rw [hmap, List.take_append_drop]

theorem splitBang_none (f : List Nat) (h : f.contains 33 = false) :
    splitBang f = none := by
  induction f with
  | nil => rfl
  | cons b t ih =>
    have hb : b ≠ 33 := by
      intro hb
      rw [hb] at h
      simp [List.contains_cons] at h
    have ht : t.contains 33 = false := by
      by_cases hc : t.contains 33 = true
      · rw [List.contains_cons, hc] at h
        simp at h
      · simpa using hc
    match b, hb with
    | 33, hb => exact absurd rfl hb
    | 0, _ => simp only [splitBang]; rw [ih ht]
    | 1, _ => simp only [splitBang]; rw [ih ht]
    | n + 34, _ => simp only [splitBang]; rw [ih ht]
    | n + 2, hb =>
      match n, hb with
      | 31, hb => exact absurd rfl hb
      | 0, _ => simp only [splitBang]; rw [ih ht]
      | m + 32, _ => simp only [splitBang]; rw [ih ht]
      | m + 1, _ => simp only [splitBang]; rw [ih ht]

/-- bytes.TrimSpace (ASCII): strip leading and trailing whitespace. -/
def trimSpaceB (l : List Nat) : List Nat :=
  ((l.dropWhile isSpaceB).reverse.dropWhile isSpaceB).reverse

/-- Reading a written line back: the client's read loop strips the
terminator (and any surrounding whitespace) with bytes.TrimSpace before
handing the line to parseRequest. -/
theorem trimSpaceB_append_crlf (b : Nat) (t : List Nat) (c : Nat)
    (hb : isSpaceB b = false) (hc : (b :: t).getLast? = some c)
    (hcs : isSpaceB c = false) :
    trimSpaceB ((b :: t) ++ crlf) = b :: t := by
  unfold trimSpaceB
  have h1 : ((b :: t) ++ crlf).dropWhile isSpaceB = (b :: t) ++ crlf := by
    simp [List.dropWhile, hb]
  rw [h1]
  have h2 : ((b :: t) ++ crlf).reverse = 10 :: 13 :: (b :: t).reverse := by
    simp [crlf]
  rw [h2]
  have h3 : (b :: t).reverse.head? = some c := by
    rw [List.head?_reverse]
    exact hc
  obtain ⟨s, hs⟩ : ∃ s, (b :: t).reverse = c :: s := by
    match hrev : (b :: t).reverse with
    | [] => rw [hrev] at h3; simp at h3
    | x :: s =>
      rw [hrev] at h3
      simp at h3
      exact ⟨s, by rw [h3]⟩
  rw [hs]
  have h4 : (10 : Nat) :: 13 :: c :: s = [10, 13] ++ c :: s := rfl
  have h10 : isSpaceB 10 = true := by decide
  have h13 : isSpaceB 13 = true := by decide
  rw [show ((10 : Nat) :: 13 :: c :: s).dropWhile isSpaceB = c :: s by
    simp [List.dropWhile, h10, h13, hcs]]
  rw [← hs]
  simp

/-- In the non-truncating regime Raw appends the terminator and nothing else. -/
theorem Raw_short (msg : List Nat) (h0 : msg ≠ []) (h : msg.length < 510) :
    Raw msg = some (msg ++ crlf) := by
  have hlen : (msg ++ crlf).length = msg.length + 2 := by simp [crlf]
  have h2 : ¬ (msg ++ crlf).length ≤ 2 := by
    rw [hlen]
    have : 1 ≤ msg.length := List.length_pos.mpr h0
    omega
  have h512 : ¬ (msg ++ crlf).length ≥ 512 := by
    rw [hlen]; omega
  rw [Raw]
  rw [if_neg h2, if_neg h512]

theorem getLast_nonspace_of_all (x : List Nat) (hx : x ≠ [])
    (hall : x.all (fun b => ! isSpaceB b) = true) :
    ∃ c, x.getLast? = some c ∧ isSpaceB c = false := by
  match hrev : x.reverse with
  | [] =>
    exact absurd (by simpa using congrArg List.reverse hrev) hx
  | c :: s =>
    refine ⟨c, ?_, ?_⟩
    · rw [← List.head?_reverse, hrev]
      rfl
    · have hc : c ∈ x := by
        rw [← List.mem_reverse, hrev]
        simp
      have := List.all_eq_true.mp hall c hc
      simpa using this

theorem joinSp_cons_decomp (x : List Nat) (xs : List (List Nat)) :
    ∃ R, joinSp (x :: xs) = x ++ R := by
  match xs with
  | [] => exact ⟨[], by simp [joinSp]⟩
  | y :: rest => exact ⟨32 :: joinSp (y :: rest), rfl⟩

theorem joinSp_getLast_nonspace (ts : List (List Nat)) (h0 : ts ≠ [])
    (h : ∀ t ∈ ts, t ≠ [] ∧ t.all (fun b => ! isSpaceB b) = true) :
    ∃ c, (joinSp ts).getLast? = some c ∧ isSpaceB c = false := by
  induction ts with
  | nil => exact absurd rfl h0
  | cons x xs ih =>
    match xs, ih with
    | [], _ =>
      have hx := h x (by simp)
      exact getLast_nonspace_of_all x hx.1 hx.2
    | y :: rest, ih =>
      obtain ⟨c, hc1, hc2⟩ := ih (by simp) (fun t ht => h t (by simp [ht]))
      refine ⟨c, ?_, hc2⟩
      have hjoin : joinSp (x :: y :: rest) = x ++ 32 :: joinSp (y :: rest) := rfl
      rw [hjoin, List.getLast?_append]
      have hne : joinSp (y :: rest) ≠ [] :=
        joinSp_ne_nil (y :: rest) (by simp) (fun t ht => (h t (by simp [ht])).1)
      have : (32 :: joinSp (y :: rest)).getLast? = some c := by
        rw [show (32 : Nat) :: joinSp (y :: rest) = [32] ++ joinSp (y :: rest) from rfl]
        rw [List.getLast?_append, hc1]
        rfl
      rw [this]
      rfl

/-- C2 (counterexample).  Encoding the verb QUIT with no arguments yields a
well-formed line of fewer than 510 bytes whose decode is none, so the
unrestricted encode-then-decode round trip fails to recover the verb. -/
theorem roundtrip_counterexample :
    (joinSp [bQUIT]).length < 510 ∧
    Raw (joinSp [bQUIT]) = some (asBytes "QUIT" ++ crlf) ∧
    parseRequest (trimSpaceB (asBytes "QUIT" ++ crlf)) = .skip := by
  refine ⟨by decide, by decide, by decide⟩

/-- C2 (amended).  The encode-then-decode round trip holds on the
well-formed ordinary subset: for a verb and at least two arguments, all
nonempty whitespace-free ASCII words, whose joined line is under 510 bytes,
does not start with PING or ERROR, contains no QUIT, has no ':'-prefixed
token among the first four, and whose verb contains no '!', Raw emits the
line unchanged (plus terminator) and parseRequest recovers the verb (sender
fields), the first argument (type), the second (target) and the remaining
arguments joined by single spaces (payload). -/
theorem encode_decode_roundtrip (verb a0 a1 : List Nat) (rest : List (List Nat))
    (htok : ∀ t ∈ verb :: a0 :: a1 :: rest,
      t ≠ [] ∧ t.all (fun b => ! isSpaceB b) = true)
    (hlen : (joinSp (verb :: a0 :: a1 :: rest)).length < 510)
    (hping : bPING.isPrefixOf (joinSp (verb :: a0 :: a1 :: rest)) = false)
    (herror : bERROR.isPrefixOf (joinSp (verb :: a0 :: a1 :: rest)) = false)
    (hquit : containsSeq bQUIT (joinSp (verb :: a0 :: a1 :: rest)) = false)
    (hcolon : ∀ t ∈ (verb :: a0 :: a1 :: rest).take 4, t.head? ≠ some 58)
    (hbang : verb.contains 33 = false) :
    Raw (joinSp (verb :: a0 :: a1 :: rest)) =
      some (joinSp (verb :: a0 :: a1 :: rest) ++ crlf) ∧
    parseRequest (trimSpaceB (joinSp (verb :: a0 :: a1 :: rest) ++ crlf)) =
      .ok { SenderName := verb, SenderMask := verb, «Type» := a0, Target := a1,
            Data := joinSp rest } := by
  have hne : joinSp (verb :: a0 :: a1 :: rest) ≠ [] :=
    joinSp_ne_nil _ (by simp) (fun t ht => (htok t ht).1)
  have henc := Raw_short _ hne hlen
  refine ⟨henc, ?_⟩
  -- The written line reads back as itself.
  obtain ⟨vb, vt, hverb⟩ : ∃ vb vt, verb = vb :: vt := by
    match verb, (htok verb (by simp)).1 with
    | v :: vs, _ => exact ⟨v, vs, rfl⟩
  obtain ⟨R, hdecomp⟩ := joinSp_cons_decomp verb (a0 :: a1 :: rest)
  have hline : ∃ lt, joinSp (verb :: a0 :: a1 :: rest) = vb :: lt := by
    rw [hdecomp, hverb]
    exact ⟨vt ++ R, rfl⟩
  obtain ⟨lt, hlt⟩ := hline
  have hvb : isSpaceB vb = false := by
    have := (htok verb (by simp)).2
    rw [hverb] at this
    have := List.all_eq_true.mp this vb (by simp)
    simpa using this
  obtain ⟨c, hc1, hc2⟩ := joinSp_getLast_nonspace (verb :: a0 :: a1 :: rest)
    (by simp) htok
  have htrim : trimSpaceB (joinSp (verb :: a0 :: a1 :: rest) ++ crlf) =
      joinSp (verb :: a0 :: a1 :: rest) := by
    rw [hlt] at hc1 ⊢
    exact trimSpaceB_append_crlf vb lt c hvb hc1 hc2
  rw [htrim]
  -- Decode the line.
  have hfields : fieldsB (joinSp (verb :: a0 :: a1 :: rest)) =
      verb :: a0 :: a1 :: rest := fieldsB_joinSp _ htok
  unfold parseRequest
  rw [if_neg (by rw [hfields]; simp), if_neg (by simp [hquit]),
    if_neg (by simp [hping]), if_neg (by simp [herror]), hfields,
    stripFirst4_id _ hcolon]
  simp [splitBang_none verb hbang]

/-- Witness for C2: the round trip at the concrete line "cmd a b c". -/
theorem encode_decode_roundtrip_witness :
    Raw (joinSp [asBytes "cmd", asBytes "a", asBytes "b", asBytes "c"]) =
      some (asBytes "cmd a b c" ++ crlf) ∧
    parseRequest (trimSpaceB (asBytes "cmd a b c" ++ crlf)) =
      .ok { SenderName := asBytes "cmd", SenderMask := asBytes "cmd",
            «Type» := asBytes "a", Target := asBytes "b",
            Data := asBytes "c" } := by
  have h := encode_decode_roundtrip (asBytes "cmd") (asBytes "a") (asBytes "b")
    [asBytes "c"] (by decide) (by decide) (by decide) (by decide) (by decide)
    (by decide) (by decide)
  have hj : joinSp [asBytes "cmd", asBytes "a", asBytes "b", asBytes "c"] =
      asBytes "cmd a b c" := by decide
  have hjr : joinSp [asBytes "c"] = asBytes "c" := by decide
  rw [hj, hjr] at h
  exact h

-- ### Command registry and dispatcher (src/unnamed/part_000, irc/cmd)

/-- ASCII lower-casing of one byte (strings.ToLower on the ASCII subset). -/
def toLowerB (b : Nat) : Nat := if 65 ≤ b ∧ b ≤ 90 then b + 32 else b

/-- strings.ToLower on a Go string (ASCII). -/
def toLowerStr (s : List Nat) : List Nat := s.map toLowerB

/-- A declared command parameter: name, required flag and the compiled
pattern's MatchString function. -/
structure Param where
  Name : List Nat
  Required : Bool
  Pattern : List Nat → Bool

/-- A registry entry.  The handler callback is opaque; its invocation is
recorded in the dispatch outcome instead. -/
structure Command where
  Name : List Nat
  Params : List Param
  Restricted : Bool

/-- newCommand: the stored name is lower-cased at construction. -/
def newCommand (name : List Nat) (restricted : Bool) : Command :=
  { Name := toLowerStr name, Params := [], Restricted := restricted }

/-- Command.RequiredParamCount: the number of parameters marked required. -/
def Command.RequiredParamCount (c : Command) : Nat :=
  (c.Params.filter (fun p => p.Required)).length

/-- The user-facing reply texts from irc/cmd/strings.go. -/
def TextMissingParameters : String := "Ontbrekende parameters voor commando: %s"

def TextInvalidParameter : String := "Commando %s: ongeldige waarde voor parameter %q"

def TextAccessDenied : String :=
  "Helaas, pindakaas. Het commando %q mag uitsluitend door beheerders uitgevoerd worden."

/-- One proto.PrivMsg reply: target, format template, format arguments. -/
structure Msg where
  target : List Nat
  template : String
  args : List (List Nat)
deriving DecidableEq

/-- The observable outcome of one Set.Dispatch call: the boolean result,
the replies written, and the handler invocation that was scheduled (command
name and validated parameter values), if any. -/
structure DispatchOut where
  handled : Bool
  sent : List Msg
  invoked : Option (List Nat × List (List Nat))
deriving DecidableEq

/-- cmd.Set: auth predicate, bound commands, command prefix. -/
structure CmdSet where
  authenticate : List Nat → Bool
  data : List Command
  cmdPrefix : List Nat

/-- cmd.New: a nil auth handler becomes the deny-all predicate. -/
def SetNew (pfx : List Nat) (auth : Option (List Nat → Bool)) : CmdSet :=
  { cmdPrefix := pfx
    authenticate :=
      match auth with
      | none => fun _ => false
      | some f => f
    data := [] }

/-- cmd.split (part_000): strings.Fields plus removal of empty entries
(a no-op after Fields), then head/tail. -/
def splitCmd (data : List Nat) : List Nat × List (List Nat) :=
  match (fieldsB data).filter (fun t => ! t.isEmpty) with
  | [] => ([], [])
  | x :: xs => (x, xs)

/-- Modelled from the spec: the cmd.List container (Find) is not among the
sources; the spec says lookup is by case-normalized name over the
name-sorted registry.  Linear search is observationally the lookup. -/
def ListFind (reg : List Command) (name : List Nat) : Option Command :=
  reg.find? (fun c => c.Name == toLowerStr name)

/-- Modelled from the spec: cmd.List.Index returns the position of the
named command, `none` standing for Go's -1. -/
def ListIndex (reg : List Command) (name : List Nat) : Option Nat :=
  reg.findIdx? (fun c => c.Name == toLowerStr name)

/-- The parameter-validation loop of Set.Dispatch:
`for i := 0; i < len(args) && i < len(cmd.Params); i++`, returning the
name of the first parameter whose pattern rejects its argument, or the
collected values. -/
def validateArgs : List Param → List (List Nat) → Except (List Nat) (List (List Nat))
  | _, [] => .ok []
  | [], _ :: _ => .ok []
  | p :: ps, a :: as =>
    if p.Pattern a then
      match validateArgs ps as with
      | .ok t => .ok (a :: t)
      | .error e => .error e
    else .error p.Name

/-- The tail of Set.Dispatch once the command is found: authorization,
arity check, validation, then the asynchronous handler invocation. -/
def dispatchFound (s : CmdSet) (r : Request) (cmd : Command)
    (args : List (List Nat)) : DispatchOut :=
  if cmd.Restricted && ! s.authenticate r.SenderMask then
    { handled := false
      sent := [⟨r.SenderName, TextAccessDenied, [cmd.Name]⟩]
      invoked := none }
  else if args.length < cmd.RequiredParamCount then
    { handled := false
      sent := [⟨r.SenderName, TextMissingParameters, [cmd.Name]⟩]
      invoked := none }
  else
    match validateArgs cmd.Params args with
    | .error pname =>
      { handled := false
        sent := [⟨r.SenderName, TextInvalidParameter, [cmd.Name, pname]⟩]
        invoked := none }
    | .ok params =>
      { handled := true, sent := [], invoked := some (cmd.Name, params) }

/-- Set.Dispatch (part_000): prefix check, split, lookup, then
`dispatchFound`. -/
def Dispatch (s : CmdSet) (r : Request) : DispatchOut :=
  if ! s.cmdPrefix.isPrefixOf r.Data then { handled := false, sent := [], invoked := none }
  else
    match splitCmd (r.Data.drop s.cmdPrefix.length) with
    | (name, args) =>
      if name = [] then { handled := false, sent := [], invoked := none }
      else
        match ListFind s.data name with
        | none => { handled := false, sent := [], invoked := none }
        | some cmd => dispatchFound s r cmd args

/-- The conditions under which Dispatch reaches a registered command. -/
def MatchedCmd (s : CmdSet) (r : Request) (name : List Nat)
    (args : List (List Nat)) (cmd : Command) : Prop :=
  s.cmdPrefix.isPrefixOf r.Data = true ∧
  splitCmd (r.Data.drop s.cmdPrefix.length) = (name, args) ∧
  name ≠ [] ∧
  ListFind s.data name = some cmd

theorem Dispatch_matched (s : CmdSet) (r : Request) (name : List Nat)
    (args : List (List Nat)) (cmd : Command)
    (h : MatchedCmd s r name args cmd) :
    Dispatch s r = dispatchFound s r cmd args := by
  obtain ⟨hpre, hsplit, hname, hfind⟩ := h
  unfold Dispatch
  rw [hpre, hsplit]
  simp only [Bool.not_true, Bool.false_eq_true, if_false]
  rw [if_neg hname, hfind]

/-- C3.  A restricted command dispatched by a sender the authorization
predicate rejects yields exactly one access-denied reply to the sender
naming the command, the call returns false, and the handler is never
invoked; the handler of a restricted command is reachable only through a
successful authorization check; and a registry built with a nil predicate
denies every sender. -/
theorem dispatch_restricted_denies :
    (∀ s r name args cmd, MatchedCmd s r name args cmd →
      cmd.Restricted = true → s.authenticate r.SenderMask = false →
      Dispatch s r =
        { handled := false
          sent := [⟨r.SenderName, TextAccessDenied, [cmd.Name]⟩]
          invoked := none }) ∧
    (∀ s r name args cmd, MatchedCmd s r name args cmd →
      cmd.Restricted = true → (Dispatch s r).invoked ≠ none →
      s.authenticate r.SenderMask = true) ∧
    (∀ pfx m, (SetNew pfx none).authenticate m = false) := by
  refine ⟨?_, ?_, ?_⟩
  · intro s r name args cmd hm hres hauth
    rw [Dispatch_matched s r name args cmd hm]
    unfold dispatchFound
    rw [if_pos (by rw [hres, hauth]; rfl)]
  · intro s r name args cmd hm hres hinv
    by_cases hauth : s.authenticate r.SenderMask = true
    · exact hauth
    · exfalso
      apply hinv
      rw [Dispatch_matched s r name args cmd hm]
      unfold dispatchFound
      rw [if_pos (by rw [hres]; simp [hauth])]
  · intro pfx m
    rfl

-- Concrete data for the dispatch witnesses.

def wCmdRestricted : Command :=
  { Name := asBytes "x", Params := [], Restricted := true }

def wSetDeny : CmdSet :=
  { authenticate := fun _ => false
    data := [wCmdRestricted]
    cmdPrefix := asBytes "!" }

def wReq (payload : String) : Request :=
  { SenderName := asBytes "bob", SenderMask := asBytes "bob!u@host",
    «Type» := asBytes "PRIVMSG", Target := asBytes "#chan",
    Data := asBytes payload }

/-- Witness for C3: a deny-all registry rejects a restricted command. -/
theorem dispatch_restricted_denies_witness :
    Dispatch wSetDeny (wReq "!x") =
      { handled := false
        sent := [⟨asBytes "bob", TextAccessDenied, [asBytes "x"]⟩]
        invoked := none } ∧
    (SetNew (asBytes "!") none).authenticate (asBytes "eve!u@h") = false := by
  constructor
  · have h := dispatch_restricted_denies.1 wSetDeny (wReq "!x") (asBytes "x")
      [] wCmdRestricted ⟨by decide, by decide, by decide, rfl⟩ rfl rfl
    exact h
  · exact dispatch_restricted_denies.2.2 (asBytes "!") (asBytes "eve!u@h")

theorem validateArgs_ok_take (ps : List Param) (as_ : List (List Nat))
    (out : List (List Nat)) (h : validateArgs ps as_ = .ok out) :
    out = as_.take ps.length := by
  induction ps generalizing as_ out with
  | nil =>
    match as_ with
    | [] =>
      simp only [validateArgs] at h
      cases h
      rfl
    | a :: t =>
      simp only [validateArgs] at h
      cases h
      rfl
  | cons p ps ih =>
    match as_ with
    | [] =>
      simp only [validateArgs] at h
      cases h
      rfl
    | a :: t =>
      simp only [validateArgs] at h
      by_cases hp : p.Pattern a = true
      · rw [if_pos hp] at h
        match hrec : validateArgs ps t with
        | .ok u =>
          rw [hrec] at h
          cases h
          simp only [List.length_cons, List.take_succ_cons]
          rw [ih t u hrec]
        | .error e =>
          rw [hrec] at h
          cases h
      · rw [if_neg hp] at h
        cases h

theorem validateArgs_ok_valid (ps : List Param) (as_ : List (List Nat))
    (out : List (List Nat)) (h : validateArgs ps as_ = .ok out) :
    ∀ i p a, ps.get? i = some p → out.get? i = some a →
      p.Pattern a = true := by
  induction ps generalizing as_ out with
  | nil =>
    intro i p a hp
    simp at hp
  | cons q ps ih =>
    match as_ with
    | [] =>
      simp only [validateArgs] at h
      cases h
      intro i p a _ ha
      simp at ha
    | a0 :: t =>
      simp only [validateArgs] at h
      by_cases hq : q.Pattern a0 = true
      · rw [if_pos hq] at h
        match hrec : validateArgs ps t with
        | .ok u =>
          rw [hrec] at h
          cases h
          intro i p a hp ha
          match i with
          | 0 =>
            simp at hp ha
            rw [← hp, ← ha]
            exact hq
          | i + 1 =>
            simp only [List.get?_cons_succ] at hp ha
            exact ih t u hrec i p a hp ha
        | .error e =>
          rw [hrec] at h
          cases h
      · rw [if_neg hq] at h
        cases h

theorem validateArgs_error_first (ps : List Param) (as_ : List (List Nat))
    (e : List Nat) (h : validateArgs ps as_ = .error e) :
    ∃ i p a, ps.get? i = some p ∧ as_.get? i = some a ∧
      p.Pattern a = false ∧ e = p.Name ∧
      (∀ j pj aj, j < i → ps.get? j = some pj → as_.get? j = some aj →
        pj.Pattern aj = true) := by
  induction ps generalizing as_ with
  | nil =>
    match as_ with
    | [] => simp [validateArgs] at h
    | a :: t => simp [validateArgs] at h
  | cons q ps ih =>
    match as_ with
    | [] => simp [validateArgs] at h
    | a0 :: t =>
      simp only [validateArgs] at h
      by_cases hq : q.Pattern a0 = true
      · rw [if_pos hq] at h
        match hrec : validateArgs ps t with
        | .ok u =>
          rw [hrec] at h
          cases h
        | .error e2 =>
          rw [hrec] at h
          cases h
          obtain ⟨i, p, a, hp, ha, hfail, hname, hfirst⟩ := ih t hrec
          refine ⟨i + 1, p, a, by simpa using hp, by simpa using ha,
            hfail, hname, ?_⟩
          intro j pj aj hj hpj haj
          match j with
          | 0 =>
            simp at hpj haj
            rw [← hpj, ← haj]
            exact hq
          | j + 1 =>
            simp only [List.get?_cons_succ] at hpj haj
            exact hfirst j pj aj (by omega) hpj haj
      · rw [if_neg hq] at h
        cases h
        refine ⟨0, q, a0, rfl, rfl, by simpa using hq, rfl, ?_⟩
        intro j pj aj hj
        omega

/-- C4.  For a matched, authorized command: too few arguments yields one
missing-parameters reply and false without invoking the handler; otherwise
parameters are validated in declaration order and the first mismatch yields
one invalid-parameter reply naming the command and the failing parameter,
false, and no invocation; and when the handler is invoked every validated
value matches its declared pattern, the validated list being the arguments
truncated at the declared parameter count (optional parameters beyond the
supplied arguments are omitted). -/
theorem dispatch_parameter_validation :
    (∀ s r name args cmd, MatchedCmd s r name args cmd →
      (cmd.Restricted = true → s.authenticate r.SenderMask = true) →
      args.length < cmd.RequiredParamCount →
      Dispatch s r =
        { handled := false
          sent := [⟨r.SenderName, TextMissingParameters, [cmd.Name]⟩]
          invoked := none }) ∧
    (∀ s r name args cmd pname, MatchedCmd s r name args cmd →
      (cmd.Restricted = true → s.authenticate r.SenderMask = true) →
      ¬ args.length < cmd.RequiredParamCount →
      validateArgs cmd.Params args = .error pname →
      Dispatch s r =
        { handled := false
          sent := [⟨r.SenderName, TextInvalidParameter, [cmd.Name, pname]⟩]
          invoked := none } ∧
      (∃ i p a, cmd.Params.get? i = some p ∧ args.get? i = some a ∧
        p.Pattern a = false ∧ pname = p.Name ∧
        (∀ j pj aj, j < i → cmd.Params.get? j = some pj →
          args.get? j = some aj → pj.Pattern aj = true))) ∧
    (∀ s r name args cmd params, MatchedCmd s r name args cmd →
      (cmd.Restricted = true → s.authenticate r.SenderMask = true) →
      ¬ args.length < cmd.RequiredParamCount →
      validateArgs cmd.Params args = .ok params →
      Dispatch s r =
        { handled := true, sent := [], invoked := some (cmd.Name, params) } ∧
      params = args.take cmd.Params.length ∧
      (∀ i p a, cmd.Params.get? i = some p → params.get? i = some a →
        p.Pattern a = true)) := by
  have hcond : ∀ (s : CmdSet) (r : Request) (cmd : Command),
      (cmd.Restricted = true → s.authenticate r.SenderMask = true) →
      (cmd.Restricted && ! s.authenticate r.SenderMask) = false := by
    intro s r cmd hauth
    match hR : cmd.Restricted with
    | false => rfl
    | true => rw [hauth hR]; rfl
  refine ⟨?_, ?_, ?_⟩
  · intro s r name args cmd hm hauth hmiss
    rw [Dispatch_matched s r name args cmd hm]
    unfold dispatchFound
    rw [if_neg (by rw [hcond s r cmd hauth]; simp), if_pos hmiss]
  · intro s r name args cmd pname hm hauth hmiss herr
    refine ⟨?_, validateArgs_error_first cmd.Params args pname herr⟩
    rw [Dispatch_matched s r name args cmd hm]
    unfold dispatchFound
    rw [if_neg (by rw [hcond s r cmd hauth]; simp), if_neg hmiss, herr]
  · intro s r name args cmd params hm hauth hmiss hok
    refine ⟨?_, validateArgs_ok_take cmd.Params args params hok,
      fun i p a hp ha => validateArgs_ok_valid cmd.Params args params hok i p a hp ha⟩
    rw [Dispatch_matched s r name args cmd hm]
    unfold dispatchFound
    rw [if_neg (by rw [hcond s r cmd hauth]; simp), if_neg hmiss, hok]

-- Concrete data for the C4 witness.

def wCmdParam : Command :=
  { Name := asBytes "y"
    Params := [{ Name := asBytes "p1", Required := true,
                 Pattern := fun v => v == asBytes "ok" }]
    Restricted := false }

def wSetParam : CmdSet :=
  { authenticate := fun _ => false
    data := [wCmdParam]
    cmdPrefix := asBytes "!" }

/-- Witness for C4: the same command dispatched with no argument, with a
rejected argument, and with an accepted argument. -/
theorem dispatch_parameter_validation_witness :
    Dispatch wSetParam (wReq "!y") =
      { handled := false
        sent := [⟨asBytes "bob", TextMissingParameters, [asBytes "y"]⟩]
        invoked := none } ∧
    Dispatch wSetParam (wReq "!y bad") =
      { handled := false
        sent := [⟨asBytes "bob", TextInvalidParameter,
                  [asBytes "y", asBytes "p1"]⟩]
        invoked := none } ∧
    Dispatch wSetParam (wReq "!y ok") =
      { handled := true, sent := []
        invoked := some (asBytes "y", [asBytes "ok"]) } := by
  refine ⟨?_, ?_, ?_⟩
  · exact dispatch_parameter_validation.1 wSetParam (wReq "!y") (asBytes "y")
      [] wCmdParam ⟨by decide, by decide, by decide, rfl⟩
      (fun h => nomatch h) (by decide)
  · exact (dispatch_parameter_validation.2.1 wSetParam (wReq "!y bad")
      (asBytes "y") [asBytes "bad"] wCmdParam (asBytes "p1")
      ⟨by decide, by decide, by decide, rfl⟩
      (fun h => nomatch h) (by decide) rfl).1
  · exact (dispatch_parameter_validation.2.2 wSetParam (wReq "!y ok")
      (asBytes "y") [asBytes "ok"] wCmdParam [asBytes "ok"]
      ⟨by decide, by decide, by decide, rfl⟩
      (fun h => nomatch h) (by decide) rfl).1

-- ### Registry maintenance (Set.Bind / Set.Unbind) and its invariants

/-- Lexicographic byte-string comparison: Go's `a <= b` on strings. -/
def strLe : List Nat → List Nat → Bool
  | [], _ => true
  | _ :: _, [] => false
  | a :: as_, b :: bs =>
    if a < b then true
    else if b < a then false
    else strLe as_ bs

theorem strLe_total (x y : List Nat) : strLe x y = true ∨ strLe y x = true := by
  induction x generalizing y with
  | nil => exact Or.inl rfl
  | cons a as_ ih =>
    match y with
    | [] => exact Or.inr rfl
    | b :: bs =>
      by_cases hab : a < b
      · exact Or.inl (by simp [strLe, hab])
      · by_cases hba : b < a
        · exact Or.inr (by simp [strLe, hba])
        · have hle1 : strLe (a :: as_) (b :: bs) = strLe as_ bs := by
            simp [strLe, hab, hba]
          have hle2 : strLe (b :: bs) (a :: as_) = strLe bs as_ := by
            simp [strLe, hab, hba]
          rw [hle1, hle2]
          exact ih bs

/-- sort.Sort on the registry, modelled as insertion sort on the Less
relation `cl[i].Name < cl[j].Name` (the spec only fixes that the result is
name-sorted; the Go sort is an unstable quicksort). -/
def insertSorted (c : Command) : List Command → List Command
  | [] => [c]
  | d :: ds => if strLe c.Name d.Name then c :: d :: ds else d :: insertSorted c ds

def sortCommands : List Command → List Command
  | [] => []
  | c :: cs => insertSorted c (sortCommands cs)

theorem mem_insertSorted (x c : Command) (l : List Command) :
    x ∈ insertSorted c l ↔ x = c ∨ x ∈ l := by
  induction l with
  | nil => simp [insertSorted]
  | cons d ds ih =>
    by_cases h : strLe c.Name d.Name = true
    · simp [insertSorted, h]
    · simp only [insertSorted, h, Bool.false_eq_true, if_false,
        List.mem_cons, ih]
      tauto

theorem strLe_trans (x y z : List Nat) (hxy : strLe x y = true)
    (hyz : strLe y z = true) : strLe x z = true := by
  induction x generalizing y z with
  | nil => rfl
  | cons a as_ ih =>
    match y with
    | [] => simp [strLe] at hxy
    | b :: bs =>
      match z with
      | [] => simp [strLe] at hyz
      | c :: cs =>
        by_cases hab : a < b
        · by_cases hbc : b < c
          · simp [strLe, show a < c by omega]
          · by_cases hcb : c < b
            · simp [strLe, hbc, hcb] at hyz
            · have hbec : b = c := by omega
              simp [strLe, show a < c by omega]
        · by_cases hba : b < a
          · simp [strLe, hab, hba] at hxy
          · have haeb : a = b := by omega
            rw [show strLe (a :: as_) (b :: bs) =
              strLe as_ bs by simp [strLe, hab, hba]] at hxy
            by_cases hbc : b < c
            · simp [strLe, show a < c by omega]
            · by_cases hcb : c < b
              · simp [strLe, hbc, hcb] at hyz
              · have hbec : b = c := by omega
                rw [show strLe (b :: bs) (c :: cs) =
                  strLe bs cs by simp [strLe, hbc, hcb]] at hyz
                rw [show strLe (a :: as_) (c :: cs) =
                  strLe as_ cs by simp [strLe, show ¬ a < c by omega,
                    show ¬ c < a by omega]]
                exact ih bs cs hxy hyz

theorem pairwise_insertSorted (c : Command) (l : List Command)
    (h : l.Pairwise (fun a b => strLe a.Name b.Name = true)) :
    (insertSorted c l).Pairwise (fun a b => strLe a.Name b.Name = true) := by
  induction l with
  | nil => simp [insertSorted]
  | cons d ds ih =>
    rcases List.pairwise_cons.mp h with ⟨hd, hds⟩
    by_cases hc : strLe c.Name d.Name = true
    · simp only [insertSorted, hc, if_true]
      refine List.pairwise_cons.mpr ⟨?_, h⟩
      intro x hx
      rcases List.mem_cons.mp hx with hxd | hxds
      · rw [hxd]; exact hc
      · exact strLe_trans c.Name d.Name x.Name hc (hd x hxds)
    · simp only [insertSorted, hc, Bool.false_eq_true, if_false]
      refine List.pairwise_cons.mpr ⟨?_, ih hds⟩
      intro x hx
      rcases (mem_insertSorted x c ds).mp hx with hxc | hxds
      · rw [hxc]
        rcases strLe_total c.Name d.Name with hcd | hdc
        · exact absurd hcd hc
        · exact hdc
      · exact hd x hxds

theorem pairwise_sortCommands (l : List Command) :
    (sortCommands l).Pairwise (fun a b => strLe a.Name b.Name = true) := by
  induction l with
  | nil => exact List.Pairwise.nil
  | cons c cs ih => exact pairwise_insertSorted c (sortCommands cs) ih

theorem mem_sortCommands (x : Command) (l : List Command) :
    x ∈ sortCommands l ↔ x ∈ l := by
  induction l with
  | nil => simp [sortCommands]
  | cons c cs ih =>
    simp only [sortCommands, mem_insertSorted, ih, List.mem_cons]

/-- Set.Bind: append the freshly built command, then re-sort by name. -/
def SetBind (reg : List Command) (name : List Nat) (restricted : Bool) :
    List Command :=
  sortCommands (reg ++ [newCommand name restricted])

/-- Set.Unbind: remove the named command when present, no-op otherwise. -/
def SetUnbind (reg : List Command) (name : List Nat) : List Command :=
  match ListIndex reg name with
  | some i => reg.eraseIdx i
  | none => reg

/-- One registry operation. -/
inductive RegOp where
  | bind (name : List Nat) (restricted : Bool)
  | unbind (name : List Nat)

def applyOp (reg : List Command) : RegOp → List Command
  | .bind name restricted => SetBind reg name restricted
  | .unbind name => SetUnbind reg name

def applyOps : List RegOp → List Command → List Command
  | [], reg => reg
  | op :: ops, reg => applyOps ops (applyOp reg op)

/-- Every stored command name is lower-cased. -/
def NamesLower (reg : List Command) : Prop :=
  ∀ c ∈ reg, toLowerStr c.Name = c.Name

/-- The registry is sorted by name in ascending (non-strict) order. -/
def NamesSorted (reg : List Command) : Prop :=
  reg.Pairwise (fun a b => strLe a.Name b.Name = true)

theorem toLowerB_idem (b : Nat) : toLowerB (toLowerB b) = toLowerB b := by
  unfold toLowerB
  by_cases h : 65 ≤ b ∧ b ≤ 90
  · rw [if_pos h, if_neg (by omega)]
  · rw [if_neg h, if_neg h]

theorem toLowerStr_idem (s : List Nat) :
    toLowerStr (toLowerStr s) = toLowerStr s := by
  unfold toLowerStr
  rw [List.map_map]
  refine List.map_congr_left ?_
  intro b _
  exact toLowerB_idem b

theorem applyOp_preserves (reg : List Command) (op : RegOp)
    (hlow : NamesLower reg) (hsort : NamesSorted reg) :
    NamesLower (applyOp reg op) ∧ NamesSorted (applyOp reg op) := by
  match op with
  | .bind name restricted =>
    constructor
    · intro c hc
      rw [applyOp, SetBind, mem_sortCommands] at hc
      rcases List.mem_append.mp hc with hold | hnew
      · exact hlow c hold
      · have : c = newCommand name restricted := by simpa using hnew
        rw [this]
        exact toLowerStr_idem name
    · exact pairwise_sortCommands _
  | .unbind name =>
    rw [applyOp, SetUnbind]
    match ListIndex reg name with
    | some i =>
      constructor
      · intro c hc
        exact hlow c ((List.eraseIdx_sublist reg i).mem hc)
      · exact hsort.sublist (List.eraseIdx_sublist reg i)
    | none => exact ⟨hlow, hsort⟩

/-- C6 (amended).  After any sequence of bind/unbind operations starting
from the empty registry, every stored command name is lower-cased and the
registry is sorted by name in ascending (non-strict) order; per-name
uniqueness does NOT hold, since Bind appends unconditionally. -/
theorem registry_invariants (ops : List RegOp) :
    NamesLower (applyOps ops []) ∧ NamesSorted (applyOps ops []) := by
  suffices h : ∀ reg, NamesLower reg → NamesSorted reg →
      NamesLower (applyOps ops reg) ∧ NamesSorted (applyOps ops reg) by
    exact h [] (fun c hc => absurd hc (List.not_mem_nil c)) List.Pairwise.nil
  induction ops with
  | nil => intro reg h1 h2; exact ⟨h1, h2⟩
  | cons op ops ih =>
    intro reg h1 h2
    obtain ⟨h1a, h2a⟩ := applyOp_preserves reg op h1 h2
    exact ih (applyOp reg op) h1a h2a

/-- The operation sequence that binds the same name twice. -/
def dupOps : List RegOp :=
  [RegOp.bind (asBytes "x") false, RegOp.bind (asBytes "x") false]

/-- C6 (counterexample).  Binding "x" twice leaves two commands named "x"
in the registry: the at-most-one-command-per-name invariant fails. -/
theorem registry_duplicate_names :
    (applyOps dupOps []).map Command.Name = [asBytes "x", asBytes "x"] ∧
    ¬ ((applyOps dupOps []).map Command.Name).Nodup := by
  constructor
  · rfl
  · intro h
    have : asBytes "x" ≠ asBytes "x" := by
      have hx := (show (applyOps dupOps []).map Command.Name =
        [asBytes "x", asBytes "x"] from rfl) ▸ h
      simpa using hx
    exact this rfl

/-- Witness for C6 at the concrete duplicate-bind sequence. -/
theorem registry_invariants_witness :
    NamesLower (applyOps dupOps []) ∧ NamesSorted (applyOps dupOps []) :=
  registry_invariants dupOps

-- ### proto.Join (src/irc/proto/proto.go) over the fallible writer

/-- irc.Channel: name, optional channel key, optional chanserv password. -/
structure Channel where
  Name : List Nat
  Key : List Nat
  Password : List Nat
deriving DecidableEq

/-- The formatted body of `Raw(w, "chanserv INVITE %s", ch.Name)`. -/
def inviteMsg (ch : Channel) : List Nat := asBytes "chanserv INVITE " ++ ch.Name

/-- The formatted body of the JOIN line, with the key when one is present. -/
def joinMsg (ch : Channel) : List Nat :=
  if ch.Key.length > 0 then asBytes "JOIN " ++ ch.Name ++ 32 :: ch.Key
  else asBytes "JOIN " ++ ch.Name

/-- proto.PrivMsg's formatted body: `Raw(w, "PRIVMSG %s :%s", target, text)`. -/
def PrivMsgMsg (target text : List Nat) : List Nat :=
  asBytes "PRIVMSG " ++ target ++ asBytes " :" ++ text

/-- The identify message sent to the chanserv service. -/
def identifyMsg (ch : Channel) : List Nat :=
  PrivMsgMsg (asBytes "chanserv") (asBytes "IDENTIFY " ++ ch.Name ++ 32 :: ch.Password)

/-- The line Raw actually puts on the wire for a message. -/
def lineOf (msg : List Nat) : List Nat := (Raw msg).getD []

/-- proto.Join: per channel, an invite request, the join line, and — only
when a chanserv password is set and every preceding write succeeded — the
identify message.  The first write error aborts the whole call. -/
def Join (fails : Nat → Bool) (st : List (List Nat)) :
    List Channel → List (List Nat) × Bool
  | [] => (st, false)
  | ch :: rest =>
    match rawW fails st (inviteMsg ch) with
    | (st1, e1) =>
      if e1 then (st1, true)
      else
        match rawW fails st1 (joinMsg ch) with
        | (st2, e2) =>
          if e2 then (st2, true)
          else
            if ch.Password.length > 0 then
              match rawW fails st2 (identifyMsg ch) with
              | (st3, e3) => if e3 then (st3, true) else Join fails st3 rest
            else Join fails st2 rest

theorem Raw_ne_none (msg : List Nat) (h : msg ≠ []) : Raw msg ≠ none := by
  have hpos : 1 ≤ msg.length := List.length_pos.mpr h
  have h2 : ¬ (msg ++ crlf).length ≤ 2 := by
    rw [List.length_append]
    have hc : crlf.length = 2 := rfl
    omega
  rw [Raw]
  rw [if_neg h2]
  by_cases h512 : (msg ++ crlf).length ≥ 512
  · rw [if_pos h512]; simp
  · rw [if_neg h512]; simp

theorem rawW_some (fails : Nat → Bool) (st : List (List Nat)) (msg : List Nat)
    (h : msg ≠ []) :
    rawW fails st msg = (st ++ [lineOf msg], fails st.length) := by
  match hline : Raw msg with
  | none => exact absurd hline (Raw_ne_none msg h)
  | some line =>
    unfold rawW lineOf
    rw [hline]
    rfl

theorem inviteMsg_ne_nil (ch : Channel) : inviteMsg ch ≠ [] := by
  unfold inviteMsg
  simp [asBytes]

theorem joinMsg_ne_nil (ch : Channel) : joinMsg ch ≠ [] := by
  unfold joinMsg
  by_cases h : ch.Key.length > 0
  · rw [if_pos h]; simp [asBytes]
  · rw [if_neg h]; simp [asBytes]

theorem identifyMsg_ne_nil (ch : Channel) : identifyMsg ch ≠ [] := by
  unfold identifyMsg PrivMsgMsg
  simp [asBytes]

/-- C9 (amended).  Joining one channel whose chanserv password is set
writes exactly THREE lines — the chanserv invite, the join line (with the
key exactly when one is present), then the identify message — in that
order; the identify message (and the join line) are not sent when an
earlier write fails; and no identify message is sent when no password is
set. -/
theorem join_write_sequence (ch : Channel) (fails : Nat → Bool) :
    (ch.Password.length > 0 → fails 0 = false → fails 1 = false →
      Join fails [] [ch] =
        ([lineOf (inviteMsg ch), lineOf (joinMsg ch), lineOf (identifyMsg ch)],
          fails 2)) ∧
    (fails 0 = false → fails 1 = true →
      Join fails [] [ch] = ([lineOf (inviteMsg ch), lineOf (joinMsg ch)], true)) ∧
    (fails 0 = true →
      Join fails [] [ch] = ([lineOf (inviteMsg ch)], true)) ∧
    (¬ ch.Password.length > 0 → fails 0 = false →
      Join fails [] [ch] =
        ([lineOf (inviteMsg ch), lineOf (joinMsg ch)], fails 1)) := by
  have hw0 := rawW_some fails [] (inviteMsg ch) (inviteMsg_ne_nil ch)
  have hw1 := rawW_some fails [lineOf (inviteMsg ch)] (joinMsg ch)
    (joinMsg_ne_nil ch)
  have hw2 := rawW_some fails [lineOf (inviteMsg ch), lineOf (joinMsg ch)]
    (identifyMsg ch) (identifyMsg_ne_nil ch)
  simp only [List.nil_append, List.length_nil] at hw0
  simp only [List.length_cons, List.length_nil] at hw1 hw2
  refine ⟨?_, ?_, ?_, ?_⟩
  · intro hpw h0 h1
    match h2 : fails 2 with
    | true => simp [Join, hw0, hw1, hw2, h0, h1, h2, hpw]
    | false => simp [Join, hw0, hw1, hw2, h0, h1, h2, hpw]
  · intro h0 h1
    simp [Join, hw0, hw1, h0, h1]
  · intro h0
    simp [Join, hw0, h0]
  · intro hpw h0
    match h1 : fails 1 with
    | true => simp [Join, hw0, hw1, h0, h1, hpw]
    | false => simp [Join, hw0, hw1, h0, h1, hpw]

def noFail : Nat → Bool := fun _ => false

def failSecond : Nat → Bool := fun i => i == 1

def wChan : Channel :=
  { Name := asBytes "#a", Key := [], Password := asBytes "p" }

/-- C9 (counterexample).  Joining a channel with a registration password
set writes three lines, not two: a chanserv invite precedes the join line
and the identify message. -/
theorem join_three_writes_counterexample :
    (Join noFail [] [wChan]).1.length = 3 ∧
    ¬ (Join noFail [] [wChan]).1.length = 2 := by
  constructor
  · decide
  · decide

/-- Witness for C9: the full three-line sequence with no failures, the
truncated sequence when the join write fails, and the two-line sequence
when no password is set. -/
theorem join_write_sequence_witness :
    Join noFail [] [wChan] =
      ([lineOf (inviteMsg wChan), lineOf (joinMsg wChan),
        lineOf (identifyMsg wChan)], false) ∧
    Join failSecond [] [wChan] =
      ([lineOf (inviteMsg wChan), lineOf (joinMsg wChan)], true) ∧
    Join noFail [] [{ wChan with Password := [] }] =
      ([lineOf (inviteMsg { wChan with Password := [] }),
        lineOf (joinMsg { wChan with Password := [] })], false) := by
  refine ⟨?_, ?_, ?_⟩
  · exact (join_write_sequence wChan noFail).1 (by decide) rfl rfl
  · exact (join_write_sequence wChan failSecond).2.1 rfl rfl
  · exact (join_write_sequence { wChan with Password := [] } noFail).2.2.2
      (by decide) rfl
